import Mathlib

/-!
Verification of the recovery (backup / transaction), key management and error
classification layers of the supper repository (Go).

The Go sources are shallowly embedded:
* the file system is an association list from structured paths (lists of
  components, mirroring filepath.Join and filepath.Base) to file contents;
* IO failures of the environment (copy and remove failures) are injected
  through boolean oracles, mirroring the fallible os calls;
* wall-clock timestamps are an oracle indexed by a logical clock, mirroring
  time.Now().Format("20060102-150405");
* Go string comparison (used by the sorted os.ReadDir listing) is byte-wise
  lexicographic; for the ASCII names involved this coincides with the
  code-point-wise comparison listLe below.
-/

namespace Supper

/-! ### Lexicographic order on file names (Go string comparison) -/

def listLe : List Char → List Char → Bool
  | [], _ => true
  | _ :: _, [] => false
  | a :: as, b :: bs =>
    if a.toNat < b.toNat then true
    else if b.toNat < a.toNat then false
    else listLe as bs

def strLe (a b : String) : Bool := listLe a.data b.data

theorem listLe_refl (l : List Char) : listLe l l = true := by
  induction l with
  | nil => rfl
  | cons a as ih => simp [listLe, ih]

theorem strLe_refl (s : String) : strLe s s = true := listLe_refl s.data

theorem listLe_trans :
    ∀ a b c : List Char, listLe a b = true → listLe b c = true → listLe a c = true := by
  intro a
  induction a with
  | nil => intro b c _ _; rfl
  | cons x xs ih =>
    intro b c hab hbc
    cases b with
    | nil => simp [listLe] at hab
    | cons y ys =>
      cases c with
      | nil => simp [listLe] at hbc
      | cons z zs =>
        simp only [listLe] at hab hbc ⊢
        split at hab
        · rename_i hxy
          split
          · rfl
          · rename_i hxz
            split
            · rename_i hzx
              exfalso
              split at hbc
              · rename_i hyz; omega
              · split at hbc
                · exact Bool.false_ne_true hbc
                · rename_i h1 h2; omega
            · rename_i hzx
              split at hbc
              · rename_i hyz; omega
              · split at hbc
                · exact absurd hbc Bool.false_ne_true
                · rename_i h1 h2; omega
        · split at hab
          · exact absurd hab Bool.false_ne_true
          · rename_i hxy hyx
            have hxy' : x.toNat = y.toNat := by omega
            split at hbc
            · rename_i hyz
              split
              · rfl
              · rename_i hxz; omega
            · split at hbc
              · exact absurd hbc Bool.false_ne_true
              · rename_i hyz hzy
                split
                · rfl
                · split
                  · rename_i h1 h2; omega
                  · exact ih ys zs hab hbc

theorem listLe_total (a b : List Char) : listLe a b = true ∨ listLe b a = true := by
  induction a generalizing b with
  | nil => left; rfl
  | cons x xs ih =>
    cases b with
    | nil => right; rfl
    | cons y ys =>
      simp only [listLe]
      rcases Nat.lt_trichotomy x.toNat y.toNat with h | h | h
      · left; simp [h]
      · have h1 : ¬ x.toNat < y.toNat := by omega
        have h2 : ¬ y.toNat < x.toNat := by omega
        rcases ih ys with hc | hc
        · left; simp [h1, h2, hc]
        · right; simp [h1, h2, hc]
      · right; simp [h]

theorem strLe_trans (a b c : String) (h1 : strLe a b = true) (h2 : strLe b c = true) :
    strLe a c = true := listLe_trans a.data b.data c.data h1 h2

theorem strLe_total (a b : String) : strLe a b = true ∨ strLe b a = true :=
  listLe_total a.data b.data

/-! ### Sorting of directory listings (os.ReadDir returns names sorted) -/

def insertSorted (x : String) : List String → List String
  | [] => [x]
  | y :: ys => if strLe x y then x :: y :: ys else y :: insertSorted x ys

def sortNames (l : List String) : List String := l.foldr insertSorted []

theorem perm_insertSorted (x : String) (l : List String) :
    (insertSorted x l).Perm (x :: l) := by
  induction l with
  | nil => exact List.Perm.refl _
  | cons y ys ih =>
    simp only [insertSorted]
    split
    · exact List.Perm.refl _
    · exact List.Perm.trans (List.Perm.cons y ih) (List.Perm.swap x y ys)

theorem perm_sortNames (l : List String) : (sortNames l).Perm l := by
  induction l with
  | nil => exact List.Perm.refl _
  | cons x xs ih =>
    exact List.Perm.trans (perm_insertSorted x (sortNames xs)) (List.Perm.cons x ih)

theorem mem_sortNames {a : String} {l : List String} : a ∈ sortNames l ↔ a ∈ l :=
  (perm_sortNames l).mem_iff

theorem sorted_insertSorted (x : String) (l : List String)
    (h : l.Pairwise (fun a b => strLe a b = true)) :
    (insertSorted x l).Pairwise (fun a b => strLe a b = true) := by
  induction l with
  | nil => simp [insertSorted]
  | cons y ys ih =>
    simp only [insertSorted]
    split
    · rename_i hxy
      constructor
      · intro b hb
        rcases List.mem_cons.mp hb with hb | hb
        · exact hb ▸ hxy
        · exact strLe_trans x y b hxy (List.rel_of_pairwise_cons h hb)
      · exact h
    · rename_i hxy
      have hyx : strLe y x = true := by
        rcases strLe_total x y with hc | hc
        · exact absurd hc hxy
        · exact hc
      have hys := List.Pairwise.of_cons h
      constructor
      · intro b hb
        have hb' := (perm_insertSorted x ys).mem_iff.mp hb
        rcases List.mem_cons.mp hb' with hb' | hb'
        · exact hb' ▸ hyx
        · exact List.rel_of_pairwise_cons h hb'
      · exact ih hys

theorem sorted_sortNames (l : List String) :
    (sortNames l).Pairwise (fun a b => strLe a b = true) := by
  induction l with
  | nil => exact List.Pairwise.nil
  | cons x xs ih => exact sorted_insertSorted x (sortNames xs) ih

theorem nodup_sortNames {l : List String} (h : l.Nodup) : (sortNames l).Nodup :=
  ((perm_sortNames l).symm).nodup h

/-! ### Substring utilities (regexp and strings.Contains embeddings) -/

def listPre : List Char → List Char → Bool
  | [], _ => true
  | _ :: _, [] => false
  | a :: as, b :: bs => a == b && listPre as bs

def suffixes : List Char → List (List Char)
  | [] => [[]]
  | c :: t => (c :: t) :: suffixes t

def hasInfixB (pat s : List Char) : Bool := (suffixes s).any (listPre pat)

def strContains (hay pat : String) : Bool := hasInfixB pat.data hay.data

def endsWithC (suf s : List Char) : Bool := listPre suf.reverse s.reverse

/-! ### File system model

A path is its list of components (filepath.Join appends a component,
filepath.Base is the last component).  The file system is an association list
from paths to file contents; directories exist implicitly.  awrite models
os.WriteFile (update in place or append), aremove models os.Remove.
-/

abbrev Path := List String

abbrev FS := List (Path × String)

def alookup {β : Type} : List (Path × β) → Path → Option β
  | [], _ => none
  | e :: rest, p => if e.1 = p then some e.2 else alookup rest p

def awrite {β : Type} : List (Path × β) → Path → β → List (Path × β)
  | [], p, v => [(p, v)]
  | e :: rest, p, v => if e.1 = p then (p, v) :: rest else e :: awrite rest p v

def aremove {β : Type} (l : List (Path × β)) (p : Path) : List (Path × β) :=
  l.filter (fun e => ! decide (e.1 = p))

def Wf {β : Type} (l : List (Path × β)) : Prop := (l.map Prod.fst).Nodup

instance {β : Type} [DecidableEq β] (l : List (Path × β)) : Decidable (Wf l) := by
  unfold Wf; infer_instance

theorem alookup_awrite_self {β : Type} (l : List (Path × β)) (p : Path) (v : β) :
    alookup (awrite l p v) p = some v := by
  induction l with
  | nil => simp [awrite, alookup]
  | cons e rest ih =>
    simp only [awrite]
    split
    · simp [alookup]
    · rename_i h
      simp only [alookup, if_neg h]
      exact ih

theorem alookup_awrite_ne {β : Type} (l : List (Path × β)) (p q : Path) (v : β)
    (h : q ≠ p) : alookup (awrite l p v) q = alookup l q := by
  have hpq : ¬ p = q := fun hh => h hh.symm
  induction l with
  | nil => simp [awrite, alookup, hpq]
  | cons e rest ih =>
    by_cases he : e.1 = p
    · have heq : ¬ e.1 = q := fun hh => hpq (he.symm.trans hh)
      simp only [awrite, if_pos he, alookup, if_neg hpq, if_neg heq]
    · simp only [awrite, if_neg he, alookup]
      split
      · rfl
      · exact ih

theorem awrite_self {β : Type} (l : List (Path × β)) (p : Path) (v : β)
    (h : alookup l p = some v) : awrite l p v = l := by
  induction l with
  | nil => simp [alookup] at h
  | cons e rest ih =>
    simp only [alookup] at h
    simp only [awrite]
    split
    · rename_i he
      rw [if_pos he] at h
      cases e
      simp_all
    · rename_i he
      rw [if_neg he] at h
      rw [ih h]

theorem map_fst_awrite_mem {β : Type} (l : List (Path × β)) (p : Path) (v : β)
    (h : p ∈ l.map Prod.fst) : (awrite l p v).map Prod.fst = l.map Prod.fst := by
  induction l with
  | nil => simp at h
  | cons e rest ih =>
    simp only [awrite]
    split
    · rename_i he; simp [he]
    · rename_i he
      simp only [List.map_cons, List.mem_cons] at h
      rcases h with h | h
      · exact absurd h.symm he
      · simp [ih h]

theorem map_fst_awrite_not_mem {β : Type} (l : List (Path × β)) (p : Path) (v : β)
    (h : ¬ p ∈ l.map Prod.fst) : (awrite l p v).map Prod.fst = l.map Prod.fst ++ [p] := by
  induction l with
  | nil => simp [awrite]
  | cons e rest ih =>
    simp only [List.map_cons, List.mem_cons] at h
    push_neg at h
    simp only [awrite]
    split
    · rename_i he; exact absurd he.symm h.1
    · simp [ih h.2]

theorem Wf_awrite {β : Type} {l : List (Path × β)} (p : Path) (v : β)
    (h : Wf l) : Wf (awrite l p v) := by
  unfold Wf at h ⊢
  by_cases hp : p ∈ l.map Prod.fst
  · rw [map_fst_awrite_mem l p v hp]; exact h
  · rw [map_fst_awrite_not_mem l p v hp]
    exact List.Nodup.append h (List.nodup_singleton p)
      (fun a ha hb => hp (by rwa [List.mem_singleton.mp hb] at ha))

theorem map_fst_aremove {β : Type} (l : List (Path × β)) (p : Path) :
    (aremove l p).map Prod.fst = (l.map Prod.fst).filter (fun q => ! decide (q = p)) := by
  induction l with
  | nil => rfl
  | cons e rest ih =>
    simp only [aremove, List.filter_cons] at ih ⊢
    split
    · simp only [List.map_cons, List.filter_cons]
      rename_i hcond
      rw [if_pos hcond]
      simp [ih]
    · simp only [List.map_cons, List.filter_cons]
      rename_i hcond
      rw [if_neg hcond]
      exact ih

theorem Wf_aremove {β : Type} {l : List (Path × β)} (p : Path) (h : Wf l) :
    Wf (aremove l p) := by
  unfold Wf at h ⊢
  rw [map_fst_aremove]
  exact h.filter _

theorem alookup_isSome_iff {β : Type} (l : List (Path × β)) (p : Path) :
    (alookup l p).isSome ↔ p ∈ l.map Prod.fst := by
  induction l with
  | nil => simp [alookup]
  | cons e rest ih =>
    simp only [alookup, List.map_cons, List.mem_cons]
    split
    · rename_i he
      constructor
      · intro _
        exact Or.inl he.symm
      · intro _
        rfl
    · rename_i he
      simp only [ih]
      constructor
      · intro h; exact Or.inr h
      · intro h
        rcases h with h | h
        · exact absurd h.symm he
        · exact h

theorem alookup_mem {β : Type} {l : List (Path × β)} {p : Path} {v : β}
    (h : alookup l p = some v) : (p, v) ∈ l := by
  induction l with
  | nil => simp [alookup] at h
  | cons e rest ih =>
    simp only [alookup] at h
    split at h
    · rename_i he
      injection h with h2
      cases e with
      | mk a b =>
        subst he
        subst h2
        exact List.mem_cons_self _ _
    · right; exact ih h

theorem mem_alookup {β : Type} {l : List (Path × β)} {p : Path} {v : β}
    (h : (p, v) ∈ l) : (alookup l p).isSome := by
  rw [alookup_isSome_iff]
  exact List.mem_map.mpr ⟨(p, v), h, rfl⟩

/-! ### Error model (internal/errors/errors.go) -/

inductive ErrType
  | general
  | security
  | fileOperation
  | keyManagement
  | network
  | config
deriving DecidableEq

/-- AppError: type, message, optional cause (message of the wrapped error) and
context data added through WithData. -/
structure AppErr where
  type : ErrType
  message : String
  cause : Option String := none
  data : List (String × String) := []
deriving DecidableEq

def pathStr (p : Path) : String := String.intercalate "/" p

/-! ### BackupManager (internal/recovery/recovery.go) -/

structure BackupManager where
  BackupDir : Path
  MaxBackups : Nat
deriving DecidableEq

/-- NewBackupManager: the Go constructor resolves an empty directory argument to
a per-user default location; the model always receives the directory
explicitly.  MaxBackups defaults to 5. -/
def newBackupManager (dir : Path) : BackupManager := ⟨dir, 5⟩

structure Sys where
  fs : FS
  clock : Nat
deriving DecidableEq

/-- filepath.Base: the last path component. -/
def base (p : Path) : String := p.getLastD ""

/-- Backup file name: fmt.Sprintf("%s-%s.bak", fileName, timestamp). -/
def tsName (f ts : String) : String := f ++ "-" ++ ts ++ ".bak"

/-- The name of the entry of directory dir at path p, if p is directly inside
dir (os.ReadDir is non-recursive). -/
def entryName (dir p : Path) : Option String :=
  if p.dropLast = dir then p.getLast? else none

/-- The unsorted entry names of a directory. -/
def dirNamesRaw (fs : FS) (dir : Path) : List String :=
  (fs.map Prod.fst).filterMap (entryName dir)

/-- os.ReadDir: entry names of a directory, sorted by filename. -/
def readDirNames (fs : FS) (dir : Path) : List String :=
  sortNames (dirNamesRaw fs dir)

/-- The filter of findBackups: len(name) > len(prefixStr)+len(suffixStr) and
name starts with fileName+"-" and ends with ".bak". -/
def isBackupName (f name : String) : Bool :=
  let pre := f ++ "-"
  let suf := ".bak"
  decide (pre.length + suf.length < name.length) &&
    listPre pre.data name.data && endsWithC suf.data name.data

/-- findBackups: list the backup directory and keep the backup files of the
given base name, sorted by name (and hence by date, as the names embed a
fixed-width timestamp).  A missing backup directory gives the empty listing,
exactly as the DirExists early return in the source. -/
def findBackups (bm : BackupManager) (fs : FS) (f : String) : List String :=
  (readDirNames fs bm.BackupDir).filter (isBackupName f)

/-- Unsorted multiset view of findBackups, used in proofs. -/
def bkNames (bm : BackupManager) (fs : FS) (f : String) : List String :=
  (dirNamesRaw fs bm.BackupDir).filter (isBackupName f)

/-- utils.CopyFile: read the source, ensure the destination directory, write
the destination.  The copyOk oracle injects environment write failures. -/
def copyFileM (copyOk : Path → Path → Bool) (fs : FS) (src dst : Path) :
    Except AppErr FS :=
  match alookup fs src with
  | none => .error ⟨.general, "read error", none, []⟩
  | some c =>
    if copyOk src dst then .ok (awrite fs dst c)
    else .error ⟨.general, "write error", none, []⟩

/-- The deletion loop of cleanupOldBackups: os.Remove each name, failures are
logged and skipped (removeOk oracle), the loop continues either way. -/
def removeNames (removeOk : Path → Bool) (dir : Path) (fs : FS)
    (names : List String) : FS :=
  names.foldl
    (fun cur n => if removeOk (dir ++ [n]) then aremove cur (dir ++ [n]) else cur) fs

/-- cleanupOldBackups: if more than MaxBackups backups exist for the base name,
delete the oldest (first in sorted order) surplus ones. -/
def cleanupOldBackups (bm : BackupManager) (removeOk : Path → Bool) (fs : FS)
    (f : String) : FS :=
  if bm.MaxBackups < (findBackups bm fs f).length then
    removeNames removeOk bm.BackupDir fs
      ((findBackups bm fs f).take ((findBackups bm fs f).length - bm.MaxBackups))
  else fs

/-- utils.FileExists as used against the modeled file system (all stored
entries are regular files, directories are implicit). -/
def fileExistsFS (fs : FS) (p : Path) : Bool := (alookup fs p).isSome

/-- BackupManager.BackupFile: ensure the backup directory (modeled as always
succeeding), require the source to exist, copy it to
BackupDir/<base>-<timestamp>.bak, then run best-effort retention cleanup.  The
logical clock advances by one per call (time moves forward). -/
def backupFileM (bm : BackupManager) (removeOk : Path → Bool)
    (copyOk : Path → Path → Bool) (tss : Nat → String) (sys : Sys) (p : Path) :
    Except AppErr (Sys × Path) :=
  if fileExistsFS sys.fs p then
    match copyFileM copyOk sys.fs p (bm.BackupDir ++ [tsName (base p) (tss sys.clock)]) with
    | .error e =>
      .error ⟨.fileOperation, "Failed to create backup", some e.message,
        [("source", pathStr p),
         ("destination", pathStr (bm.BackupDir ++ [tsName (base p) (tss sys.clock)]))]⟩
    | .ok fs1 =>
      .ok (⟨cleanupOldBackups bm removeOk fs1 (base p), sys.clock + 1⟩,
        bm.BackupDir ++ [tsName (base p) (tss sys.clock)])
  else
    .error ⟨.fileOperation, "Cannot backup non-existent file", none,
      [("path", pathStr p)]⟩

/-- BackupManager.RestoreFromBackup: pick the most recent (last in sorted
order) backup for the base name and copy it back over the path. -/
def restoreFromBackup (bm : BackupManager) (copyOk : Path → Path → Bool)
    (fs : FS) (p : Path) : Except AppErr (FS × Path) :=
  if (findBackups bm fs (base p)).isEmpty then
    .error ⟨.fileOperation, "No backups found for file", none, [("file", base p)]⟩
  else
    match copyFileM copyOk fs
        (bm.BackupDir ++ [(findBackups bm fs (base p)).getLastD ""]) p with
    | .error e =>
      .error ⟨.fileOperation, "Failed to restore from backup", some e.message,
        [("backup", pathStr (bm.BackupDir ++ [(findBackups bm fs (base p)).getLastD ""])),
         ("destination", pathStr p)]⟩
    | .ok fs1 => .ok (fs1, bm.BackupDir ++ [(findBackups bm fs (base p)).getLastD ""])

/-! ### TransactionManager (internal/recovery/recovery.go) -/

structure TransactionManager where
  backupManager : BackupManager
  backupPaths : List (Path × Path)
deriving DecidableEq

/-- TransactionManager.Rollback: for every recorded (path, backupPath), if the
backup still exists copy it back over the path; failures are aggregated into
the last error and do not stop the loop.  The recorded mapping is not
cleared. -/
def rbStep (copyOk : Path → Path → Bool) (acc : Option AppErr × FS)
    (e : Path × Path) : Option AppErr × FS :=
  if fileExistsFS acc.2 e.2 then
    match copyFileM copyOk acc.2 e.2 e.1 with
    | .ok fs1 => (acc.1, fs1)
    | .error err =>
      (some ⟨.fileOperation, "Failed to restore file during rollback",
        some err.message, [("path", pathStr e.1)]⟩, acc.2)
  else acc

def rollbackTM (copyOk : Path → Path → Bool) (tm : TransactionManager)
    (fs : FS) : Option AppErr × FS :=
  tm.backupPaths.foldl (rbStep copyOk) (none, fs)

/-- TransactionManager.Commit: reset the recorded mapping; nothing else. -/
def commitTM (tm : TransactionManager) : TransactionManager :=
  ⟨tm.backupManager, []⟩

/-- Commit acting on the whole system state: the file system is untouched. -/
def commitS (tm : TransactionManager) (sys : Sys) : TransactionManager × Sys :=
  (commitTM tm, sys)

/-- The loop body of TransactionManager.Begin: skip non-existent paths, back up
existing ones, record path to backupPath; on a backup failure run Rollback on
what was recorded so far in this call and return the error (the partial
mapping stays recorded, as in the source). -/
def beginLoop (bm : BackupManager) (removeOk : Path → Bool)
    (copyOk : Path → Path → Bool) (tss : Nat → String) :
    List Path → List (Path × Path) → Sys → Option AppErr × List (Path × Path) × Sys
  | [], m, sys => (none, m, sys)
  | p :: rest, m, sys =>
    if fileExistsFS sys.fs p then
      match backupFileM bm removeOk copyOk tss sys p with
      | .error e =>
        (some e, m, ⟨(rollbackTM copyOk ⟨bm, m⟩ sys.fs).2, sys.clock⟩)
      | .ok (sys1, bp) => beginLoop bm removeOk copyOk tss rest (awrite m p bp) sys1
    else beginLoop bm removeOk copyOk tss rest m sys

/-- TransactionManager.Begin: reset the mapping, then run the loop. -/
def beginTM (removeOk : Path → Bool) (copyOk : Path → Path → Bool)
    (tss : Nat → String) (tm : TransactionManager) (paths : List Path)
    (sys : Sys) : Option AppErr × TransactionManager × Sys :=
  ((beginLoop tm.backupManager removeOk copyOk tss paths [] sys).1,
   ⟨tm.backupManager, (beginLoop tm.backupManager removeOk copyOk tss paths [] sys).2.1⟩,
   (beginLoop tm.backupManager removeOk copyOk tss paths [] sys).2.2)

/-! ### utils.FileExists (internal/utils/files.go)

The outcome of os.Stat is one of: success (with an isDir flag), a
does-not-exist error, or any other error (for example permission denied).
FileExists checks os.IsNotExist(err) and otherwise dereferences the returned
FileInfo; when stat failed for another reason that FileInfo is nil and the
dereference panics.  The panic is modeled as the result none. -/

inductive StatRes
  | ok (isDir : Bool)
  | errNotExist
  | errOther
deriving DecidableEq

def fileExistsGo : StatRes → Option Bool
  | .ok d => some (!d)
  | .errNotExist => some false
  | .errOther => none

/-! ### Age key tool invocations (internal/age/age.go)

A subprocess invocation is embedded as the data the parent hands to it: the
argument list, the bytes written to its input stream, extra environment
entries, and the temporary files (created with os.CreateTemp, mode 0600)
prepared for it. -/

structure KeyPair where
  PrivateKey : String
  PublicKey : String
  IsEncrypted : Bool
deriving DecidableEq

structure CmdSpec where
  argv : List String
  stdinData : String
  envExtra : List (String × String)
  tempFiles : List (String × String)
deriving DecidableEq

/-- EncryptKey (stdin variant): key material in a temp file named on the
command line, passphrase written twice to the input stream (age asks for a
confirmation). -/
def encryptKeyCmd (key : KeyPair) (passphrase : String) (tmpPath : String) :
    CmdSpec :=
  { argv := ["age", "-p", "-o", "-", tmpPath]
  , stdinData := passphrase ++ "\n" ++ passphrase ++ "\n"
  , envExtra := []
  , tempFiles := [(tmpPath, key.PrivateKey)] }

/-- DecryptKey (stdin variant): ciphertext in a temp file named on the command
line, passphrase written once to the input stream. -/
def decryptKeyCmd (encryptedKey : String) (passphrase : String)
    (tmpPath : String) : CmdSpec :=
  { argv := ["age", "-d", "-i", tmpPath]
  , stdinData := passphrase ++ "\n"
  , envExtra := []
  , tempFiles := [(tmpPath, encryptedKey)] }

/-- EncryptKey (environment-variable variant, the copy embedded alongside
recovery.go): key material on the input stream, passphrase in the
AGE_PASSPHRASE environment entry. -/
def encryptKeyEnvCmd (key : KeyPair) (passphrase : String) : CmdSpec :=
  { argv := ["age", "-p", "-o", "-"]
  , stdinData := key.PrivateKey
  , envExtra := [("AGE_PASSPHRASE", passphrase)]
  , tempFiles := [] }

/-- DecryptKey (environment-variable variant). -/
def decryptKeyEnvCmd (encryptedKey : String) (passphrase : String) : CmdSpec :=
  { argv := ["age", "-d"]
  , stdinData := encryptedKey
  , envExtra := [("AGE_PASSPHRASE", passphrase)]
  , tempFiles := [] }

/-! ### SOPS error classification (internal/sops/sops.go)

The five RE2 patterns are all case-insensitive; four are plain substring
patterns and one ("no key.*found") allows a gap that may not cross a newline
(RE2 dot does not match a newline by default). -/

def toLowerChars (s : String) : List Char := s.data.map Char.toLower

/-- Match p2 at the current position or further right without crossing a
newline (the .* of the RE2 pattern). -/
def matchThen (p2 : List Char) : List Char → Bool
  | [] => listPre p2 []
  | c :: rest => listPre p2 (c :: rest) || (!(c == '\n') && matchThen p2 rest)

/-- Match p1 somewhere, then p2 after a newline-free gap. -/
def matchGap (p1 p2 s : List Char) : Bool :=
  (suffixes s).any (fun t => listPre p1 t && matchThen p2 (t.drop p1.length))

def errFailedToDecrypt (s : String) : Bool :=
  hasInfixB "failed to decrypt".data (toLowerChars s)

def errKeyNotFound (s : String) : Bool :=
  matchGap "no key".data "found".data (toLowerChars s)

def errFileAlreadyEncrypt (s : String) : Bool :=
  hasInfixB "already encrypted".data (toLowerChars s)

def errNoRegexMatch (s : String) : Bool :=
  hasInfixB "no regex match".data (toLowerChars s)

def errMissingConfiguration (s : String) : Bool :=
  hasInfixB "could not find sops configuration".data (toLowerChars s)

/-- ParseSOPSError: nil command error gives nil; otherwise the first matching
pattern (in source order) decides the classification, and the fallback is a
General error wrapping the command error with the raw stderr under the
details key. -/
def parseSOPSError (cmdErr : Option String) (stderr : String) : Option AppErr :=
  match cmdErr with
  | none => none
  | some e =>
    if errFailedToDecrypt stderr then
      some ⟨.security, "Failed to decrypt file (incorrect key or corrupted file)", none, []⟩
    else if errKeyNotFound stderr then
      some ⟨.security, "No suitable decryption key found", none, []⟩
    else if errFileAlreadyEncrypt stderr then
      some ⟨.fileOperation, "File is already encrypted", none, []⟩
    else if errNoRegexMatch stderr then
      some ⟨.config, "SOPS regex pattern did not match any values", none, []⟩
    else if errMissingConfiguration stderr then
      some ⟨.config, "Missing SOPS configuration (.sops.yaml)", none, []⟩
    else
      some ⟨.general, "SOPS operation failed", some e, [("details", stderr)]⟩

/-! ### KeyManagerView state machine (internal/ui/views/key_manager_view.go)

The Update function is embedded as a pure transition on the view state,
returning the commands it issues.  tea.Tick is a one-shot scheduled message
with no cancellation or re-arming primitive; the runtime below keeps the
multiset of pending ticks, mirroring the bubbletea scheduler. -/

inductive KMState
  | idle
  | generatingKey
  | inputPassphrase
  | confirmPassphrase
  | decryptingKey
  | deletingKey
deriving DecidableEq

structure KeyBinding where
  keys : List String
deriving DecidableEq

/-- The relevant bindings of DefaultKeyMap (main_view.go): generate "g",
decrypt "d", delete "x". -/
structure KMKeyMap where
  generateKey : KeyBinding
  decryptKey : KeyBinding
  deleteKey : KeyBinding
deriving DecidableEq

def defaultKeyMap : KMKeyMap :=
  ⟨⟨["g"]⟩, ⟨["d"]⟩, ⟨["x"]⟩⟩

/-- key.Matches compares the String() rendering of the key message against the
binding keys. -/
def keyMatches (s : String) (b : KeyBinding) : Bool := b.keys.contains s

inductive TeaMsg
  | keyMsg (s : String)
  | keyGeneratedMsg (errored : Bool)
  | keyDecryptedMsg (errored : Bool)
  | keyDeletedMsg (errored : Bool)
  | passphraseConfirmed (pass : String)
  | passphraseCancelled
deriving DecidableEq

inductive TeaCmd
  | tick (interval : Nat) (fires : TeaMsg)
  | initPassInput (prompt : String) (confirm : Bool)
  | generateKeyCmd (pass : String)
  | decryptKeyCmd (pass : String)
  | deleteKeyCmd
  | checkKeyStatus
deriving DecidableEq

structure KMView where
  keys : KMKeyMap
  state : KMState
  hasDecryptedKey : Bool
  hasEncryptedKeyOnDisk : Bool
  keyDecryptedTime : Nat
  autoDeleteInterval : Nat
  errored : Bool
deriving DecidableEq

/-- KeyManagerView.Update restricted to the key-lifecycle messages.  The
keyDecrypted success branch issues tea.Tick(autoDeleteInterval) whose firing
delivers tea.KeyMsg with Type KeyCtrlD, rendered "ctrl+d". -/
def kmUpdate (k : KMView) (msg : TeaMsg) (now : Nat) : KMView × List TeaCmd :=
  match msg with
  | .keyMsg s =>
    if keyMatches s k.keys.generateKey && decide (k.state = .idle) then
      ({ k with state := .inputPassphrase },
        [.initPassInput "Enter passphrase for new key" true])
    else if keyMatches s k.keys.decryptKey && decide (k.state = .idle) then
      if !k.hasEncryptedKeyOnDisk then
        ({ k with errored := true }, [])
      else
        ({ k with state := .decryptingKey },
          [.initPassInput "Enter passphrase to decrypt key" false])
    else if keyMatches s k.keys.deleteKey && decide (k.state = .idle)
        && k.hasDecryptedKey then
      ({ k with state := .deletingKey, errored := false }, [.deleteKeyCmd])
    else (k, [])
  | .keyGeneratedMsg e =>
    ({ k with state := .idle, errored := e }, [.checkKeyStatus])
  | .keyDecryptedMsg e =>
    if e then
      ({ k with state := .idle, errored := true }, [.checkKeyStatus])
    else
      ({ k with state := .idle, errored := false, keyDecryptedTime := now },
        [.tick k.autoDeleteInterval (.keyMsg "ctrl+d"), .checkKeyStatus])
  | .keyDeletedMsg e =>
    ({ k with state := .idle, errored := e }, [.checkKeyStatus])
  | .passphraseConfirmed p =>
    match k.state with
    | .inputPassphrase =>
      ({ k with state := .generatingKey, errored := false }, [.generateKeyCmd p])
    | .decryptingKey =>
      ({ k with state := .decryptingKey, errored := false }, [.decryptKeyCmd p])
    | _ => (k, [])
  | .passphraseCancelled => ({ k with state := .idle }, [])

structure KMRuntime where
  view : KMView
  pending : List (Nat × TeaMsg)
deriving DecidableEq

/-- The scheduler effect of the issued commands: each tea.Tick adds one
pending delivery; nothing ever removes or replaces a pending delivery. -/
def schedule (now : Nat) (cmds : List TeaCmd) : List (Nat × TeaMsg) :=
  cmds.filterMap (fun c =>
    match c with
    | .tick d m => some (now + d, m)
    | _ => none)

def kmStep (rt : KMRuntime) (msg : TeaMsg) (now : Nat) : KMRuntime × List TeaCmd :=
  let r := kmUpdate rt.view msg now
  (⟨r.1, rt.pending ++ schedule now r.2⟩, r.2)

/-- Deliver the i-th pending timer message. -/
def fireTimer (rt : KMRuntime) (i : Nat) (now : Nat) : KMRuntime × List TeaCmd :=
  match rt.pending.get? i with
  | none => (rt, [])
  | some t => kmStep ⟨rt.view, rt.pending.eraseIdx i⟩ t.2 now

/-! ### Supporting lemmas -/

theorem entryName_concat (dir : Path) (n : String) :
    entryName dir (dir ++ [n]) = some n := by
  simp [entryName, List.dropLast_concat, List.getLast?_concat]

theorem entryName_eq_some {dir p : Path} {n : String}
    (h : entryName dir p = some n) : p = dir ++ [n] := by
  unfold entryName at h
  split at h
  · rename_i hd
    rcases List.getLast?_eq_some_iff.mp h with ⟨ys, hys⟩
    rw [hys] at hd
    rw [List.dropLast_concat] at hd
    rw [hys, hd]
  · exact absurd h (by simp)

theorem alookup_aremove {β : Type} (l : List (Path × β)) (r q : Path) :
    alookup (aremove l r) q = if q = r then none else alookup l q := by
  induction l with
  | nil => simp [aremove, alookup]
  | cons e rest ih =>
    simp only [aremove, List.filter_cons] at ih ⊢
    by_cases her : e.1 = r <;> by_cases hqr : q = r <;> by_cases heq : e.1 = q <;>
      simp_all [alookup]

theorem mem_awrite {β : Type} {l : List (Path × β)} {p : Path} {v : β}
    {pb : Path × β} (h : pb ∈ awrite l p v) : pb ∈ l ∨ pb = (p, v) := by
  induction l with
  | nil => simp [awrite] at h; right; exact h
  | cons e rest ih =>
    simp only [awrite] at h
    split at h
    · rcases List.mem_cons.mp h with h | h
      · right; exact h
      · left; right; exact h
    · rcases List.mem_cons.mp h with h | h
      · left; exact h ▸ List.mem_cons_self e rest
      · rcases ih h with h | h
        · left; right; exact h
        · right; exact h

theorem mem_getLastD {l : List String} {d : String} (h : l ≠ []) :
    l.getLastD d ∈ l := by
  induction l with
  | nil => exact absurd rfl h
  | cons a t ih =>
    cases t with
    | nil => simp [List.getLastD]
    | cons b t2 =>
      have := ih (by simp)
      simp only [List.getLastD] at this ⊢
      right
      exact this

theorem pairwise_getLastD_max {l : List String} {d : String}
    (hs : l.Pairwise (fun a b => strLe a b = true)) {x : String} (hx : x ∈ l) :
    strLe x (l.getLastD d) = true := by
  induction l with
  | nil => simp at hx
  | cons a t ih =>
    cases t with
    | nil =>
      simp at hx
      simp [List.getLastD, hx, strLe_refl]
    | cons b t2 =>
      have hlast : (b :: t2).getLastD d ∈ b :: t2 := mem_getLastD (by simp)
      rcases List.mem_cons.mp hx with hx | hx
      · subst hx
        exact List.rel_of_pairwise_cons hs hlast
      · exact ih (List.Pairwise.of_cons hs) hx

theorem nodup_dirNamesRaw {fs : FS} (dir : Path) (h : Wf fs) :
    (dirNamesRaw fs dir).Nodup := by
  unfold dirNamesRaw
  refine List.Nodup.filterMap ?_ h
  intro a a' b hb hb'
  rw [entryName_eq_some hb, entryName_eq_some hb']

theorem filterMap_entry_filter (dir : Path) (n : String) :
    ∀ ps : List Path,
      ((ps.filter (fun p => ! decide (p = dir ++ [n]))).filterMap (entryName dir))
        = (ps.filterMap (entryName dir)).filter (fun m => ! decide (m = n)) := by
  intro ps
  induction ps with
  | nil => rfl
  | cons p rest ih =>
    by_cases hp : p = dir ++ [n]
    · subst hp
      simp only [List.filter_cons, List.filterMap_cons, entryName_concat,
        decide_eq_true_eq]
      rw [if_neg (by simp)]
      rw [ih]
      simp
    · simp only [List.filter_cons]
      rw [if_pos (by simp [hp])]
      simp only [List.filterMap_cons]
      cases hm : entryName dir p with
      | none => exact ih
      | some m =>
        have hmn : ¬ m = n := fun hh => hp (by rw [entryName_eq_some hm, hh])
        simp only [List.filter_cons]
        rw [if_pos (by simp [hmn])]
        rw [ih]

theorem bkNames_aremove (bm : BackupManager) (fs : FS) (f n : String) :
    bkNames bm (aremove fs (bm.BackupDir ++ [n])) f
      = (bkNames bm fs f).filter (fun m => ! decide (m = n)) := by
  unfold bkNames dirNamesRaw
  rw [map_fst_aremove, filterMap_entry_filter, List.filter_filter,
    List.filter_filter]
  exact List.filter_congr (fun x _ => by rw [Bool.and_comm])

theorem removeNames_true_bkNames (bm : BackupManager) (f : String) :
    ∀ (T : List String) (fs : FS),
      bkNames bm (removeNames (fun _ => true) bm.BackupDir fs T) f
        = (bkNames bm fs f).filter (fun m => ! decide (m ∈ T)) := by
  intro T
  induction T with
  | nil =>
    intro fs
    simp [removeNames, List.filter_congr (fun (x : String) _ =>
      (by simp : (! decide (x ∈ ([] : List String))) = true))]
  | cons t T' ih =>
    intro fs
    show bkNames bm (removeNames (fun _ => true) bm.BackupDir
      (aremove fs (bm.BackupDir ++ [t])) T') f = _
    rw [ih, bkNames_aremove, List.filter_filter]
    refine List.filter_congr (fun x _ => ?_)
    simp [List.mem_cons, Bool.and_comm]

theorem nodup_bkNames {bm : BackupManager} {fs : FS} {f : String} (h : Wf fs) :
    (bkNames bm fs f).Nodup := (nodup_dirNamesRaw _ h).filter _

theorem findBackups_perm (bm : BackupManager) (fs : FS) (f : String) :
    (findBackups bm fs f).Perm (bkNames bm fs f) :=
  List.Perm.filter _ (perm_sortNames _)

theorem length_filter_not_mem :
    ∀ (T l : List String), l.Nodup → T.Nodup → (∀ x ∈ T, x ∈ l) →
      (l.filter (fun m => ! decide (m ∈ T))).length = l.length - T.length := by
  intro T
  induction T with
  | nil =>
    intro l _ _ _
    simp
  | cons t T' ih =>
    intro l hl hT hsub
    have hTt : t ∉ T' := (List.nodup_cons.mp hT).1
    have hT' : T'.Nodup := (List.nodup_cons.mp hT).2
    have htl : t ∈ l := hsub t (List.mem_cons_self _ _)
    have h1 : l.filter (fun m => ! decide (m ∈ t :: T'))
        = (l.erase t).filter (fun m => ! decide (m ∈ T')) := by
      rw [hl.erase_eq_filter, List.filter_filter]
      refine List.filter_congr (fun x _ => ?_)
      by_cases hxt : x = t <;> by_cases hxT : x ∈ T' <;> simp [hxt, hxT]
    rw [h1, ih (l.erase t) (hl.erase t) hT'
      (fun x hx => (List.mem_erase_of_ne (fun hh => hTt (by rwa [hh] at hx))).mpr
        (hsub x (List.mem_cons_of_mem _ hx)))]
    rw [List.length_erase_of_mem htl]
    simp only [List.length_cons]
    omega

theorem removeNames_frame (ro : Path → Bool) (dir : Path) :
    ∀ (T : List String) (fs : FS) (q : Path), q.dropLast ≠ dir →
      alookup (removeNames ro dir fs T) q = alookup fs q := by
  intro T
  induction T with
  | nil => intro fs q _; rfl
  | cons t T' ih =>
    intro fs q hq
    show alookup (removeNames ro dir
      (if ro (dir ++ [t]) then aremove fs (dir ++ [t]) else fs) T') q = _
    rw [ih _ q hq]
    split
    · rw [alookup_aremove]
      rw [if_neg (fun hh => hq (by rw [hh, List.dropLast_concat]))]
    · rfl

theorem cleanup_frame (bm : BackupManager) (ro : Path → Bool) (fs : FS)
    (f : String) (q : Path) (hq : q.dropLast ≠ bm.BackupDir) :
    alookup (cleanupOldBackups bm ro fs f) q = alookup fs q := by
  unfold cleanupOldBackups
  split
  · exact removeNames_frame ro bm.BackupDir _ fs q hq
  · rfl

theorem backupFileM_ok {bm : BackupManager} {ro : Path → Bool}
    {co : Path → Path → Bool} {tss : Nat → String} {sys : Sys} {p : Path}
    {sys1 : Sys} {bp : Path}
    (h : backupFileM bm ro co tss sys p = .ok (sys1, bp)) :
    bp = bm.BackupDir ++ [tsName (base p) (tss sys.clock)] ∧
    (∃ c, alookup sys.fs p = some c ∧
      sys1.fs = cleanupOldBackups bm ro (awrite sys.fs bp c) (base p)) ∧
    sys1.clock = sys.clock + 1 ∧
    (∀ q, q.dropLast ≠ bm.BackupDir → alookup sys1.fs q = alookup sys.fs q) := by
  unfold backupFileM at h
  split at h
  · rename_i hex
    rcases hsome : alookup sys.fs p with _ | c
    · rw [fileExistsFS, hsome] at hex
      exact absurd hex (by simp)
    · rcases hco : co p (bm.BackupDir ++ [tsName (base p) (tss sys.clock)])
        with _ | _
      · rw [show copyFileM co sys.fs p
            (bm.BackupDir ++ [tsName (base p) (tss sys.clock)]) =
            .error ⟨.general, "write error", none, []⟩ from by
          unfold copyFileM
          rw [hsome, hco]
          simp] at h
        exact absurd h (by simp)
      · rw [show copyFileM co sys.fs p
            (bm.BackupDir ++ [tsName (base p) (tss sys.clock)]) =
            .ok (awrite sys.fs (bm.BackupDir ++ [tsName (base p) (tss sys.clock)]) c) from by
          unfold copyFileM
          rw [hsome, hco]
          simp] at h
        injection h with hpair
        rw [Prod.mk.injEq] at hpair
        obtain ⟨hsys, hbp⟩ := hpair
        subst hsys
        subst hbp
        refine ⟨rfl, ⟨c, rfl, rfl⟩, rfl, fun q hq => ?_⟩
        rw [cleanup_frame bm ro _ _ q hq]
        rw [alookup_awrite_ne _ _ q _
          (fun hh => hq (by rw [hh, List.dropLast_concat]))]
  · exact absurd h (by simp)

theorem copyFileM_none {co : Path → Path → Bool} {fs : FS} {src : Path}
    (dst : Path) (hs : alookup fs src = none) :
    copyFileM co fs src dst = .error ⟨.general, "read error", none, []⟩ := by
  unfold copyFileM
  rw [hs]

theorem copyFileM_ok_eq {co : Path → Path → Bool} {fs : FS} {src dst : Path}
    {c : String} (hs : alookup fs src = some c) (hco : co src dst = true) :
    copyFileM co fs src dst = .ok (awrite fs dst c) := by
  unfold copyFileM
  rw [hs, hco]
  rfl

theorem copyFileM_err_eq {co : Path → Path → Bool} {fs : FS} {src dst : Path}
    {c : String} (hs : alookup fs src = some c) (hco : co src dst = false) :
    copyFileM co fs src dst = .error ⟨.general, "write error", none, []⟩ := by
  unfold copyFileM
  rw [hs, hco]
  rfl

theorem rbStep_skip {co : Path → Path → Bool} {acc : Option AppErr × FS}
    {e : Path × Path} (hs : alookup acc.2 e.2 = none) :
    rbStep co acc e = acc := by
  unfold rbStep
  rw [if_neg (by simp [fileExistsFS, hs])]

theorem rbStep_copy {co : Path → Path → Bool} {acc : Option AppErr × FS}
    {e : Path × Path} {c : String} (hs : alookup acc.2 e.2 = some c)
    (hco : co e.2 e.1 = true) :
    rbStep co acc e = (acc.1, awrite acc.2 e.1 c) := by
  unfold rbStep
  rw [if_pos (by simp [fileExistsFS, hs]), copyFileM_ok_eq hs hco]

theorem rbStep_fail {co : Path → Path → Bool} {acc : Option AppErr × FS}
    {e : Path × Path} {c : String} (hs : alookup acc.2 e.2 = some c)
    (hco : co e.2 e.1 = false) :
    rbStep co acc e =
      (some ⟨.fileOperation, "Failed to restore file during rollback",
        some "write error", [("path", pathStr e.1)]⟩, acc.2) := by
  unfold rbStep
  rw [if_pos (by simp [fileExistsFS, hs]), copyFileM_err_eq hs hco]

theorem rollbackFold_frame (co : Path → Path → Bool) :
    ∀ (entries : List (Path × Path)) (acc : Option AppErr × FS) (q : Path),
      (∀ pb ∈ entries, q ≠ pb.1) →
      alookup (entries.foldl (rbStep co) acc).2 q = alookup acc.2 q := by
  intro entries
  induction entries with
  | nil => intro acc q _; rfl
  | cons e rest ih =>
    intro acc q hq
    rw [List.foldl_cons, ih _ q (fun pb hpb => hq pb (List.mem_cons_of_mem _ hpb))]
    rcases hs : alookup acc.2 e.2 with _ | c
    · rw [rbStep_skip hs]
    · rcases hco : co e.2 e.1 with _ | _
      · rw [rbStep_fail hs hco]
      · rw [rbStep_copy hs hco]
        exact alookup_awrite_ne _ _ _ _ (hq e (List.mem_cons_self _ _))

theorem rollbackFold_err (co : Path → Path → Bool) :
    ∀ (entries : List (Path × Path)) (fs : FS) (e0 : Option AppErr),
      (∀ pb ∈ entries, co pb.2 pb.1 = true) →
      (entries.foldl (rbStep co) (e0, fs)).1 = e0 := by
  intro entries
  induction entries with
  | nil => intro fs e0 _; rfl
  | cons e rest ih =>
    intro fs e0 hco
    rw [List.foldl_cons]
    rcases hs : alookup (e0, fs).2 e.2 with _ | c
    · rw [rbStep_skip hs]
      exact ih fs e0 (fun pb hpb => hco pb (List.mem_cons_of_mem _ hpb))
    · rw [rbStep_copy hs (hco e (List.mem_cons_self _ _))]
      exact ih _ e0 (fun pb hpb => hco pb (List.mem_cons_of_mem _ hpb))

theorem rollbackFold_spec (co : Path → Path → Bool) :
    ∀ (entries : List (Path × Path)) (fs : FS) (e0 : Option AppErr)
      (pb : Path × Path),
      (entries.map Prod.fst).Nodup →
      (∀ a ∈ entries, ∀ b ∈ entries, a.1 ≠ b.2) →
      pb ∈ entries →
      alookup (entries.foldl (rbStep co) (e0, fs)).2 pb.2 = alookup fs pb.2 ∧
      (alookup fs pb.2 = none →
        alookup (entries.foldl (rbStep co) (e0, fs)).2 pb.1 = alookup fs pb.1) ∧
      (∀ c, alookup fs pb.2 = some c → co pb.2 pb.1 = true →
        alookup (entries.foldl (rbStep co) (e0, fs)).2 pb.1 = some c) ∧
      (∀ c, alookup fs pb.2 = some c → co pb.2 pb.1 = false →
        alookup (entries.foldl (rbStep co) (e0, fs)).2 pb.1 = alookup fs pb.1) := by
  intro entries
  induction entries with
  | nil => intro fs e0 pb _ _ hpb; simp at hpb
  | cons e rest ih =>
    intro fs e0 pb hnd hdisj hpb
    simp only [List.map_cons] at hnd
    obtain ⟨hnd1, hndr⟩ := List.nodup_cons.mp hnd
    have hq1 : ∀ pb2 ∈ rest, e.1 ≠ pb2.1 :=
      fun pb2 h2 hh => hnd1 (hh ▸ List.mem_map.mpr ⟨pb2, h2, rfl⟩)
    have hq2 : ∀ pb2 ∈ rest, e.2 ≠ pb2.1 :=
      fun pb2 h2 hh =>
        hdisj pb2 (List.mem_cons_of_mem _ h2) e (List.mem_cons_self _ _) hh.symm
    have hdisjr : ∀ a ∈ rest, ∀ b ∈ rest, a.1 ≠ b.2 :=
      fun a ha b hb =>
        hdisj a (List.mem_cons_of_mem _ ha) b (List.mem_cons_of_mem _ hb)
    have h12 : e.1 ≠ e.2 :=
      hdisj e (List.mem_cons_self _ _) e (List.mem_cons_self _ _)
    rw [List.foldl_cons]
    rcases hs : alookup (e0, fs).2 e.2 with _ | c
    · rw [rbStep_skip hs]
      rcases List.mem_cons.mp hpb with hpb | hpb
      · subst hpb
        refine ⟨?_, fun _ => ?_, fun c hc _ => ?_, fun c hc _ => ?_⟩
        · exact rollbackFold_frame co rest (e0, fs) pb.2 hq2
        · exact rollbackFold_frame co rest (e0, fs) pb.1 hq1
        · rw [hs] at hc; exact absurd hc (by simp)
        · rw [hs] at hc; exact absurd hc (by simp)
      · exact ih fs e0 pb hndr hdisjr hpb
    · rcases hco : co e.2 e.1 with _ | _
      · rw [rbStep_fail hs hco]
        rcases List.mem_cons.mp hpb with hpb | hpb
        · subst hpb
          refine ⟨?_, fun _ => ?_, fun c2 hc2 hcot => ?_, fun c2 hc2 _ => ?_⟩
          · exact rollbackFold_frame co rest _ pb.2 hq2
          · exact rollbackFold_frame co rest _ pb.1 hq1
          · rw [hs] at hc2
            injection hc2 with hc2
            subst hc2
            rw [hcot] at hco
            exact absurd hco (by simp)
          · exact rollbackFold_frame co rest _ pb.1 hq1
        · exact ih fs _ pb hndr hdisjr hpb
      · rw [rbStep_copy hs hco]
        rcases List.mem_cons.mp hpb with hpb | hpb
        · subst hpb
          refine ⟨?_, fun hn => ?_, fun c2 hc2 _ => ?_, fun c2 hc2 hcof => ?_⟩
          · rw [rollbackFold_frame co rest _ pb.2 hq2]
            exact alookup_awrite_ne _ _ _ _ (fun hh => h12 hh.symm)
          · rw [hs] at hn; exact absurd hn (by simp)
          · rw [hs] at hc2
            injection hc2 with hc2
            subst hc2
            rw [rollbackFold_frame co rest _ pb.1 hq1]
            exact alookup_awrite_self _ _ _
          · rw [hcof] at hco
            exact absurd hco (by simp)
        · have htrans2 : alookup (awrite fs e.1 c) pb.2 = alookup fs pb.2 :=
            alookup_awrite_ne _ _ _ _
              (fun hh => (hdisj e (List.mem_cons_self _ _) pb
                (List.mem_cons_of_mem _ hpb)) hh.symm)
          have htrans1 : alookup (awrite fs e.1 c) pb.1 = alookup fs pb.1 :=
            alookup_awrite_ne _ _ _ _ (fun hh => (hq1 pb hpb) hh.symm)
          obtain ⟨ha, hb, hc2, hd⟩ :=
            ih (awrite fs e.1 c) e0 pb hndr hdisjr hpb
          refine ⟨?_, fun hn => ?_, fun c2 hcs hcot => ?_, fun c2 hcs hcof => ?_⟩
          · rw [ha, htrans2]
          · rw [hb (htrans2.trans hn), htrans1]
          · exact hc2 c2 (htrans2.trans hcs) hcot
          · rw [hd c2 (htrans2.trans hcs) hcof, htrans1]

theorem mem_awrite_of_ne {β : Type} {l : List (Path × β)} {p : Path} {v : β}
    {pb : Path × β} (h : pb ∈ l) (hne : pb.1 ≠ p) : pb ∈ awrite l p v := by
  induction l with
  | nil => simp at h
  | cons e rest ih =>
    rcases List.mem_cons.mp h with h | h
    · subst h
      simp only [awrite]
      rw [if_neg hne]
      exact List.mem_cons_self _ _
    · simp only [awrite]
      split
      · exact List.mem_cons_of_mem _ h
      · exact List.mem_cons_of_mem _ (ih h)

theorem backupFileM_err {bm : BackupManager} {ro : Path → Bool}
    {co : Path → Path → Bool} {tss : Nat → String} {sys : Sys} {p : Path}
    {e : AppErr} (h : backupFileM bm ro co tss sys p = .error e) :
    e.type = .fileOperation := by
  unfold backupFileM at h
  split at h
  · rcases hc : copyFileM co sys.fs p
      (bm.BackupDir ++ [tsName (base p) (tss sys.clock)]) with err | fs1
    · rw [hc] at h
      injection h with h2
      rw [← h2]
    · rw [hc] at h
      exact absurd h (by simp)
  · injection h with h2
    rw [← h2]

theorem beginLoop_cons_skip {bm : BackupManager} {ro : Path → Bool}
    {co : Path → Path → Bool} {tss : Nat → String} {p : Path}
    {rest : List Path} {m : List (Path × Path)} {sys : Sys}
    (hex : fileExistsFS sys.fs p = false) :
    beginLoop bm ro co tss (p :: rest) m sys = beginLoop bm ro co tss rest m sys := by
  conv_lhs => unfold beginLoop
  rw [hex, if_neg (by simp)]

theorem beginLoop_cons_err {bm : BackupManager} {ro : Path → Bool}
    {co : Path → Path → Bool} {tss : Nat → String} {p : Path}
    {rest : List Path} {m : List (Path × Path)} {sys : Sys} {e : AppErr}
    (hex : fileExistsFS sys.fs p = true)
    (hb : backupFileM bm ro co tss sys p = .error e) :
    beginLoop bm ro co tss (p :: rest) m sys =
      (some e, m, ⟨(rollbackTM co ⟨bm, m⟩ sys.fs).2, sys.clock⟩) := by
  conv_lhs => unfold beginLoop
  rw [hex, if_pos rfl, hb]

theorem beginLoop_cons_ok {bm : BackupManager} {ro : Path → Bool}
    {co : Path → Path → Bool} {tss : Nat → String} {p : Path}
    {rest : List Path} {m : List (Path × Path)} {sys sys1 : Sys} {bp : Path}
    (hex : fileExistsFS sys.fs p = true)
    (hb : backupFileM bm ro co tss sys p = .ok (sys1, bp)) :
    beginLoop bm ro co tss (p :: rest) m sys =
      beginLoop bm ro co tss rest (awrite m p bp) sys1 := by
  conv_lhs => unfold beginLoop
  rw [hex, if_pos rfl, hb]

theorem beginLoop_spec (bm : BackupManager) (ro : Path → Bool)
    (co : Path → Path → Bool) (tss : Nat → String) :
    ∀ (ps : List Path) (m : List (Path × Path)) (sys : Sys),
      (∀ p ∈ ps, p.dropLast ≠ bm.BackupDir) →
      Wf m →
      (∀ pb ∈ m, pb.1.dropLast ≠ bm.BackupDir ∧ pb.2.dropLast = bm.BackupDir) →
      (∀ pb ∈ (beginLoop bm ro co tss ps m sys).2.1,
        pb.1.dropLast ≠ bm.BackupDir ∧ pb.2.dropLast = bm.BackupDir) ∧
      ((∀ p ∈ ps, alookup sys.fs p = none) →
        beginLoop bm ro co tss ps m sys = (none, m, sys)) ∧
      ((beginLoop bm ro co tss ps m sys).1 = none →
        (∀ q, q.dropLast ≠ bm.BackupDir →
          alookup (beginLoop bm ro co tss ps m sys).2.2.fs q = alookup sys.fs q) ∧
        (∀ pb ∈ m, ∃ b, (pb.1, b) ∈ (beginLoop bm ro co tss ps m sys).2.1 ∧
          b.dropLast = bm.BackupDir) ∧
        (∀ p ∈ ps, (alookup sys.fs p).isSome →
          ∃ b, (p, b) ∈ (beginLoop bm ro co tss ps m sys).2.1 ∧
            b.dropLast = bm.BackupDir)) ∧
      (∀ e, (beginLoop bm ro co tss ps m sys).1 = some e →
        e.type = .fileOperation ∧
        ∀ pb ∈ (beginLoop bm ro co tss ps m sys).2.1,
          (∃ c, alookup (beginLoop bm ro co tss ps m sys).2.2.fs pb.2 = some c ∧
            alookup (beginLoop bm ro co tss ps m sys).2.2.fs pb.1 = some c) ∨
          alookup (beginLoop bm ro co tss ps m sys).2.2.fs pb.1
            = alookup sys.fs pb.1) := by
  intro ps
  induction ps with
  | nil =>
    intro m sys hbd hwf hm2
    refine ⟨hm2, fun _ => rfl,
      fun _ => ⟨fun q _ => rfl,
        fun pb hpb => ⟨pb.2, hpb, (hm2 pb hpb).2⟩,
        fun p hp _ => absurd hp (by simp)⟩,
      fun e he => Option.noConfusion he⟩
  | cons p rest ih =>
    intro m sys hbd hwf hm2
    have hbdr : ∀ p' ∈ rest, p'.dropLast ≠ bm.BackupDir :=
      fun p' h => hbd p' (List.mem_cons_of_mem _ h)
    have hbdp : p.dropLast ≠ bm.BackupDir := hbd p (List.mem_cons_self _ _)
    rcases hex : fileExistsFS sys.fs p with _ | _
    · rw [beginLoop_cons_skip hex]
      obtain ⟨c0, c1, c2, c3⟩ := ih m sys hbdr hwf hm2
      refine ⟨c0, fun hall => c1 (fun p' h => hall p' (List.mem_cons_of_mem _ h)),
        fun hnone => ?_, c3⟩
      obtain ⟨f1, f2, f3⟩ := c2 hnone
      refine ⟨f1, f2, fun p' hp' hsome => ?_⟩
      rcases List.mem_cons.mp hp' with hp' | hp'
      · subst hp'
        unfold fileExistsFS at hex
        rw [hex] at hsome
        exact absurd hsome (by simp)
      · exact f3 p' hp' hsome
    · cases hb : backupFileM bm ro co tss sys p with
      | error e =>
        rw [beginLoop_cons_err hex hb]
        refine ⟨hm2, fun hall => ?_, fun hnone => Option.noConfusion hnone,
          fun e' he' => ?_⟩
        · have hnn := hall p (List.mem_cons_self _ _)
          unfold fileExistsFS at hex
          rw [hnn] at hex
          exact absurd hex (by simp)
        · injection he' with he'
          subst he'
          refine ⟨backupFileM_err hb, fun pb hpb => ?_⟩
          have hdisj : ∀ a ∈ m, ∀ b2 ∈ m, a.1 ≠ b2.2 := fun a ha b2 hb2 hh =>
            (hm2 a ha).1 (hh ▸ (hm2 b2 hb2).2)
          obtain ⟨hA, hB, hC, hD⟩ :=
            rollbackFold_spec co m sys.fs none pb hwf hdisj hpb
          rcases hs : alookup sys.fs pb.2 with _ | c
          · right; exact hB hs
          · rcases hco : co pb.2 pb.1 with _ | _
            · right; exact hD c hs hco
            · left; exact ⟨c, hA.trans hs, hC c hs hco⟩
      | ok r =>
        obtain ⟨sys1, bp⟩ := r
        rw [beginLoop_cons_ok hex hb]
        obtain ⟨hbp, ⟨cB, hcB, hfs1⟩, hclk, hframe⟩ := backupFileM_ok hb
        have hbpd : bp.dropLast = bm.BackupDir := by
          rw [hbp, List.dropLast_concat]
        have hm2' : ∀ pb ∈ awrite m p bp,
            pb.1.dropLast ≠ bm.BackupDir ∧ pb.2.dropLast = bm.BackupDir := by
          intro pb hpb
          rcases mem_awrite hpb with h | h
          · exact hm2 pb h
          · rw [h]; exact ⟨hbdp, hbpd⟩
        obtain ⟨c0, c1, c2, c3⟩ := ih (awrite m p bp) sys1 hbdr
          (Wf_awrite p bp hwf) hm2'
        refine ⟨c0, fun hall => ?_, fun hnone => ?_, fun e' he' => ?_⟩
        · have hnn := hall p (List.mem_cons_self _ _)
          unfold fileExistsFS at hex
          rw [hnn] at hex
          exact absurd hex (by simp)
        · obtain ⟨f1, f2, f3⟩ := c2 hnone
          refine ⟨fun q hq => (f1 q hq).trans (hframe q hq),
            fun pb hpb => ?_, fun p' hp' hsome => ?_⟩
          · by_cases hkey : pb.1 = p
            · obtain ⟨b, hbmem, hbd2⟩ :=
                f2 (p, bp) (alookup_mem (alookup_awrite_self m p bp))
              exact ⟨b, by rw [hkey]; exact hbmem, hbd2⟩
            · exact f2 pb (mem_awrite_of_ne hpb hkey)
          · rcases List.mem_cons.mp hp' with hp' | hp'
            · subst hp'
              exact f2 (p', bp) (alookup_mem (alookup_awrite_self m p' bp))
            · have hsome1 : (alookup sys1.fs p').isSome := by
                rw [hframe p' (hbdr p' hp')]
                exact hsome
              exact f3 p' hp' hsome1
        · obtain ⟨ht, hall2⟩ := c3 e' he'
          refine ⟨ht, fun pb hpb => ?_⟩
          rcases hall2 pb hpb with h | h
          · left; exact h
          · right
            rw [h]
            exact hframe pb.1 (c0 pb hpb).1

theorem beginLoop_mem (bm : BackupManager) (ro : Path → Bool)
    (co : Path → Path → Bool) (tss : Nat → String) :
    ∀ (ps : List Path) (m : List (Path × Path)) (sys : Sys) (pb : Path × Path),
      pb ∈ (beginLoop bm ro co tss ps m sys).2.1 → pb ∈ m ∨ pb.1 ∈ ps := by
  intro ps
  induction ps with
  | nil => intro m sys pb h; left; exact h
  | cons p rest ih =>
    intro m sys pb h
    rcases hex : fileExistsFS sys.fs p with _ | _
    · rw [beginLoop_cons_skip hex] at h
      rcases ih m sys pb h with h | h
      · left; exact h
      · right; exact List.mem_cons_of_mem _ h
    · cases hb : backupFileM bm ro co tss sys p with
      | error e =>
        rw [beginLoop_cons_err hex hb] at h
        left; exact h
      | ok r =>
        obtain ⟨sys1, bp⟩ := r
        rw [beginLoop_cons_ok hex hb] at h
        rcases ih _ sys1 pb h with h | h
        · rcases mem_awrite h with h | h
          · left; exact h
          · right; rw [h]; exact List.mem_cons_self _ _
        · right; exact List.mem_cons_of_mem _ h

theorem backupFileM_ro_indep (bm : BackupManager) (ro1 ro2 : Path → Bool)
    (co : Path → Path → Bool) (tss : Nat → String) (sys : Sys) (p : Path) :
    (backupFileM bm ro1 co tss sys p).map Prod.snd
      = (backupFileM bm ro2 co tss sys p).map Prod.snd := by
  unfold backupFileM
  rcases hex : fileExistsFS sys.fs p with _ | _
  · rfl
  · rcases hc : copyFileM co sys.fs p
      (bm.BackupDir ++ [tsName (base p) (tss sys.clock)]) with e | fs1
    · rfl
    · rfl

def fsOfR : Except AppErr (Sys × Path) → FS
  | .ok r => r.1.fs
  | .error _ => []

theorem mem_bkNames_awrite {bm : BackupManager} {fs : FS} {f n : String}
    (q : Path) (v : String) (h : n ∈ bkNames bm fs f) :
    n ∈ bkNames bm (awrite fs q v) f := by
  unfold bkNames dirNamesRaw at h ⊢
  by_cases hq : q ∈ fs.map Prod.fst
  · rw [map_fst_awrite_mem fs q v hq]
    exact h
  · rw [map_fst_awrite_not_mem fs q v hq, List.filterMap_append]
    rw [List.mem_filter] at h ⊢
    exact ⟨List.mem_append_left _ h.1, h.2⟩

theorem mem_findBackups_awrite {bm : BackupManager} {fs : FS} {f n : String}
    (q : Path) (v : String) (h : n ∈ findBackups bm fs f) :
    n ∈ findBackups bm (awrite fs q v) f :=
  (findBackups_perm bm (awrite fs q v) f).mem_iff.mpr
    (mem_bkNames_awrite q v ((findBackups_perm bm fs f).mem_iff.mp h))

theorem sorted_findBackups (bm : BackupManager) (fs : FS) (f : String) :
    (findBackups bm fs f).Pairwise (fun a b => strLe a b = true) :=
  (sorted_sortNames _).filter _

theorem cleanup_retention (bm : BackupManager) (fs : FS) (f : String)
    (hwf : Wf fs) :
    (findBackups bm (cleanupOldBackups bm (fun _ => true) fs f) f).length
      ≤ bm.MaxBackups := by
  unfold cleanupOldBackups
  split
  · rename_i hgt
    have hperm : (findBackups bm fs f).Perm (bkNames bm fs f) :=
      findBackups_perm bm fs f
    have hnodupB : (bkNames bm fs f).Nodup := nodup_bkNames hwf
    have hnodupFB : (findBackups bm fs f).Nodup := hperm.symm.nodup hnodupB
    have hTnodup :
        (((findBackups bm fs f).take
          ((findBackups bm fs f).length - bm.MaxBackups))).Nodup :=
      (List.take_sublist _ _).nodup hnodupFB
    have hTsub : ∀ x ∈ (findBackups bm fs f).take
        ((findBackups bm fs f).length - bm.MaxBackups), x ∈ bkNames bm fs f :=
      fun x hx => hperm.mem_iff.mp (List.mem_of_mem_take hx)
    have hlen1 := (findBackups_perm bm
      (removeNames (fun _ => true) bm.BackupDir fs
        ((findBackups bm fs f).take
          ((findBackups bm fs f).length - bm.MaxBackups))) f).length_eq
    rw [hlen1, removeNames_true_bkNames,
      length_filter_not_mem _ _ hnodupB hTnodup hTsub]
    have hlen2 : (bkNames bm fs f).length = (findBackups bm fs f).length :=
      hperm.symm.length_eq
    have hTlen : ((findBackups bm fs f).take
        ((findBackups bm fs f).length - bm.MaxBackups)).length
        = (findBackups bm fs f).length - bm.MaxBackups := by
      rw [List.length_take]
      omega
    omega
  · rename_i hle
    exact Nat.le_of_not_lt hle

theorem cleanup_oldest_first (bm : BackupManager) (fs : FS) (f : String) :
    ∀ r, r ∈ findBackups bm fs f →
      r ∉ findBackups bm (cleanupOldBackups bm (fun _ => true) fs f) f →
      ∀ k ∈ findBackups bm (cleanupOldBackups bm (fun _ => true) fs f) f,
        strLe r k = true := by
  intro r hr hrout k hk
  unfold cleanupOldBackups at hrout hk
  split at hrout
  · rename_i hgt
    rw [if_pos hgt] at hk
    rw [(findBackups_perm bm _ f).mem_iff, removeNames_true_bkNames,
      List.mem_filter] at hrout
    rw [(findBackups_perm bm _ f).mem_iff, removeNames_true_bkNames,
      List.mem_filter] at hk
    have hrB : r ∈ bkNames bm fs f := (findBackups_perm bm fs f).mem_iff.mp hr
    have hrT : r ∈ (findBackups bm fs f).take
        ((findBackups bm fs f).length - bm.MaxBackups) := by
      by_contra hcon
      exact hrout ⟨hrB, by simp [hcon]⟩
    have hkB : k ∈ findBackups bm fs f :=
      (findBackups_perm bm fs f).mem_iff.mpr hk.1
    have hkT : k ∉ (findBackups bm fs f).take
        ((findBackups bm fs f).length - bm.MaxBackups) := by
      intro hcon
      have := hk.2
      simp [hcon] at this
    have hkD : k ∈ (findBackups bm fs f).drop
        ((findBackups bm fs f).length - bm.MaxBackups) := by
      have hkB2 : k ∈ (findBackups bm fs f).take
          ((findBackups bm fs f).length - bm.MaxBackups)
          ++ (findBackups bm fs f).drop
          ((findBackups bm fs f).length - bm.MaxBackups) := by
        rw [List.take_append_drop]
        exact hkB
      rcases List.mem_append.mp hkB2 with h | h
      · exact absurd h hkT
      · exact h
    have hsorted := sorted_findBackups bm fs f
    rw [← List.take_append_drop
      ((findBackups bm fs f).length - bm.MaxBackups)
      (findBackups bm fs f)] at hsorted
    exact (List.pairwise_append.mp hsorted).2.2 r hrT k hkD
  · exact absurd hr hrout

theorem rollbackFold_noop (co : Path → Path → Bool) :
    ∀ (entries : List (Path × Path)) (g : FS) (e0 : Option AppErr),
      (∀ pb ∈ entries, alookup g pb.2 = none ∨
        ∃ c, alookup g pb.2 = some c ∧ alookup g pb.1 = some c) →
      (∀ pb ∈ entries, co pb.2 pb.1 = true) →
      entries.foldl (rbStep co) (e0, g) = (e0, g) := by
  intro entries
  induction entries with
  | nil => intro g e0 _ _; rfl
  | cons e rest ih =>
    intro g e0 hC hco
    rw [List.foldl_cons]
    rcases hC e (List.mem_cons_self _ _) with h | ⟨c, hc1, hc2⟩
    · rw [rbStep_skip h]
      exact ih g e0 (fun pb hpb => hC pb (List.mem_cons_of_mem _ hpb))
        (fun pb hpb => hco pb (List.mem_cons_of_mem _ hpb))
    · rw [rbStep_copy hc1 (hco e (List.mem_cons_self _ _))]
      rw [show awrite ((e0, g) : Option AppErr × FS).2 e.1 c = g from
        awrite_self g e.1 c hc2]
      exact ih g e0 (fun pb hpb => hC pb (List.mem_cons_of_mem _ hpb))
        (fun pb hpb => hco pb (List.mem_cons_of_mem _ hpb))

/-! ### Claim theorems -/

/-- Shared concrete scenario pieces used by the witnesses. -/
def bmW : BackupManager := newBackupManager ["bk"]

def tssW : Nat → String := fun _ => "1"

def trueRO : Path → Bool := fun _ => true

def trueCO : Path → Path → Bool := fun _ _ => true

def sysW : Sys := ⟨[(["a"], "x")], 0⟩

/-- Claim C9: the claim states that utils.FileExists is total — a boolean for
every input, including a stat failure other than not-exist (for example
permission denied).  The code is refuted: on such a failure it dereferences
the nil FileInfo returned by os.Stat and panics, modeled by the result none;
on the other stat outcomes it does return the claimed boolean.  This theorem
evaluates the embedded function on all stat outcomes, the failing input
included. -/
theorem fileExists_partiality :
    fileExistsGo (.ok false) = some true ∧
    fileExistsGo (.ok true) = some false ∧
    fileExistsGo .errNotExist = some false ∧
    fileExistsGo .errOther = none :=
  ⟨rfl, rfl, rfl, rfl⟩

def c4Key : KeyPair := ⟨"AGE-SECRET-KEY-1TEST", "age1test", false⟩

/-- Claim C4 counterexample: the environment-variable variant of EncryptKey
and DecryptKey delivers the passphrase through the AGE_PASSPHRASE environment
entry — the passphrase is not written to the input stream and no temporary
file is created at all, so the claimed "only via the input stream or a
temporary file holding the key material" is false for these invocations (the
last clause holds: the passphrase is not among the arguments). -/
theorem passphrase_env_counterexample :
    strContains (encryptKeyEnvCmd c4Key "hunter2").stdinData "hunter2" = false ∧
    (encryptKeyEnvCmd c4Key "hunter2").tempFiles = [] ∧
    (encryptKeyEnvCmd c4Key "hunter2").envExtra = [("AGE_PASSPHRASE", "hunter2")] ∧
    (encryptKeyEnvCmd c4Key "hunter2").argv.contains "hunter2" = false ∧
    strContains (decryptKeyEnvCmd "age-encrypted" "hunter2").stdinData "hunter2" = false ∧
    (decryptKeyEnvCmd "age-encrypted" "hunter2").tempFiles = [] ∧
    (decryptKeyEnvCmd "age-encrypted" "hunter2").envExtra
      = [("AGE_PASSPHRASE", "hunter2")] := by
  decide

/-- Claim C4 (amended): for every passphrase, the key-tool invocations of both
EncryptKey and DecryptKey variants deliver the passphrase only via the
subprocess input stream (written twice when the tool asks for confirmation)
or via the AGE_PASSPHRASE environment entry; any temporary file holds only
the key material; and the argument list is a fixed flag list (plus the
temporary file path), independent of the passphrase, so the passphrase never
appears on the command line. -/
theorem passphrase_channels (kp : KeyPair) (p q ek t : String) :
    (encryptKeyCmd kp p t).argv = ["age", "-p", "-o", "-", t] ∧
    (decryptKeyCmd ek p t).argv = ["age", "-d", "-i", t] ∧
    (encryptKeyEnvCmd kp p).argv = ["age", "-p", "-o", "-"] ∧
    (decryptKeyEnvCmd ek p).argv = ["age", "-d"] ∧
    (encryptKeyCmd kp p t).argv = (encryptKeyCmd kp q t).argv ∧
    (decryptKeyCmd ek p t).argv = (decryptKeyCmd ek q t).argv ∧
    (encryptKeyEnvCmd kp p).argv = (encryptKeyEnvCmd kp q).argv ∧
    (decryptKeyEnvCmd ek p).argv = (decryptKeyEnvCmd ek q).argv ∧
    (encryptKeyCmd kp p t).stdinData = p ++ "\n" ++ p ++ "\n" ∧
    (decryptKeyCmd ek p t).stdinData = p ++ "\n" ∧
    (encryptKeyCmd kp p t).tempFiles = [(t, kp.PrivateKey)] ∧
    (decryptKeyCmd ek p t).tempFiles = [(t, ek)] ∧
    (encryptKeyEnvCmd kp p).envExtra = [("AGE_PASSPHRASE", p)] ∧
    (decryptKeyEnvCmd ek p).envExtra = [("AGE_PASSPHRASE", p)] ∧
    (encryptKeyEnvCmd kp p).tempFiles = [] ∧
    (decryptKeyEnvCmd ek p).tempFiles = [] :=
  ⟨rfl, rfl, rfl, rfl, rfl, rfl, rfl, rfl, rfl, rfl, rfl, rfl, rfl, rfl, rfl, rfl⟩

def kmV0 : KMView :=
  ⟨defaultKeyMap, .idle, true, true, 0, 1800, false⟩

/-- Claim C5: the auto-delete path is broken in the code, so the claim fails.
A successful decryption issues tea.Tick whose firing delivers the key message
"ctrl+d" (first conjunct); delivered in the idle state with a decrypted key
present, that message matches none of the bindings — DeleteKey is bound to
"x" — so Update leaves the view unchanged and issues no command (second
conjunct), while a manual "x" press does enter the deletion path (third
conjunct).  Moreover a second successful decryption adds a second pending
tick instead of replacing the first (fourth conjunct), and a manual delete
does not cancel the pending tick (fifth conjunct). -/
theorem autodelete_timer_fire_noop :
    (kmUpdate kmV0 (.keyDecryptedMsg false) 5).2
      = [.tick 1800 (.keyMsg "ctrl+d"), .checkKeyStatus] ∧
    kmUpdate { kmV0 with keyDecryptedTime := 5 } (.keyMsg "ctrl+d") 1805
      = ({ kmV0 with keyDecryptedTime := 5 }, []) ∧
    kmUpdate { kmV0 with keyDecryptedTime := 5 } (.keyMsg "x") 1805
      = ({ kmV0 with keyDecryptedTime := 5, state := .deletingKey },
         [.deleteKeyCmd]) ∧
    (kmStep (kmStep ⟨kmV0, []⟩ (.keyDecryptedMsg false) 0).1
        (.keyDecryptedMsg false) 10).1.pending
      = [(1800, .keyMsg "ctrl+d"), (1810, .keyMsg "ctrl+d")] ∧
    (kmStep (kmStep ⟨kmV0, []⟩ (.keyDecryptedMsg false) 0).1
        (.keyMsg "x") 20).1.pending
      = [(1800, .keyMsg "ctrl+d")] := by
  decide

/-- Claim C6: ParseSOPSError applies its pattern rules in order, first match
wins: decryption failure and no-suitable-key map to Security, already
encrypted to FileOperation, no-regex-match and missing configuration to
Config, and anything else to a General error wrapping the command error and
retaining the raw stderr under the details key; a nil command error yields
nil. -/
theorem parseSOPSError_classification (e st : String) :
    parseSOPSError none st = none ∧
    (errFailedToDecrypt st = true →
      parseSOPSError (some e) st = some ⟨.security,
        "Failed to decrypt file (incorrect key or corrupted file)", none, []⟩) ∧
    (errFailedToDecrypt st = false → errKeyNotFound st = true →
      parseSOPSError (some e) st = some ⟨.security,
        "No suitable decryption key found", none, []⟩) ∧
    (errFailedToDecrypt st = false → errKeyNotFound st = false →
      errFileAlreadyEncrypt st = true →
      parseSOPSError (some e) st = some ⟨.fileOperation,
        "File is already encrypted", none, []⟩) ∧
    (errFailedToDecrypt st = false → errKeyNotFound st = false →
      errFileAlreadyEncrypt st = false → errNoRegexMatch st = true →
      parseSOPSError (some e) st = some ⟨.config,
        "SOPS regex pattern did not match any values", none, []⟩) ∧
    (errFailedToDecrypt st = false → errKeyNotFound st = false →
      errFileAlreadyEncrypt st = false → errNoRegexMatch st = false →
      errMissingConfiguration st = true →
      parseSOPSError (some e) st = some ⟨.config,
        "Missing SOPS configuration (.sops.yaml)", none, []⟩) ∧
    (errFailedToDecrypt st = false → errKeyNotFound st = false →
      errFileAlreadyEncrypt st = false → errNoRegexMatch st = false →
      errMissingConfiguration st = false →
      parseSOPSError (some e) st = some ⟨.general,
        "SOPS operation failed", some e, [("details", st)]⟩) := by
  refine ⟨rfl, ?_, ?_, ?_, ?_, ?_, ?_⟩ <;> intros <;> simp_all [parseSOPSError]

/-- Claim C6 witness: a concrete decryption-failure diagnostic is classified
Security, through the theorem above. -/
theorem parseSOPSError_classification_witness :
    parseSOPSError (some "exit status 1") "sops: Failed to Decrypt data key" =
      some ⟨.security,
        "Failed to decrypt file (incorrect key or corrupted file)", none, []⟩ :=
  (parseSOPSError_classification "exit status 1"
    "sops: Failed to Decrypt data key").2.1 (by decide)

/-- Claim C8: Commit only clears the recorded path-to-backup mapping.  After a
successful Begin, Commit leaves the system state (and hence every backup file
taken during Begin that is still on disk, retention aside) untouched and
empties the mapping; it deletes no file. -/
theorem commit_clears_only_mapping (ro : Path → Bool) (co : Path → Path → Bool)
    (tss : Nat → String) (bm : BackupManager) (m0 : List (Path × Path))
    (ps : List Path) (sys : Sys) (tm1 : TransactionManager) (sys1 : Sys)
    (h : beginTM ro co tss ⟨bm, m0⟩ ps sys = (none, tm1, sys1)) :
    (commitS tm1 sys1).1.backupPaths = [] ∧
    (commitS tm1 sys1).2 = sys1 ∧
    (∀ q, alookup ((commitS tm1 sys1).2).fs q = alookup sys1.fs q) ∧
    (∀ pb ∈ tm1.backupPaths, (alookup sys1.fs pb.2).isSome →
      (alookup ((commitS tm1 sys1).2).fs pb.2).isSome) :=
  ⟨rfl, rfl, fun _ => rfl, fun _ _ hx => hx⟩

def c8R : Option AppErr × TransactionManager × Sys :=
  beginTM trueRO trueCO tssW ⟨bmW, []⟩ [["a"]] sysW

/-- Claim C8 witness: the concrete Begin-then-Commit run. -/
theorem commit_clears_only_mapping_witness :
    (commitS c8R.2.1 c8R.2.2).1.backupPaths = [] ∧
    (commitS c8R.2.1 c8R.2.2).2 = c8R.2.2 :=
  have h : beginTM trueRO trueCO tssW ⟨bmW, []⟩ [["a"]] sysW
      = (none, c8R.2.1, c8R.2.2) := by decide
  ⟨(commit_clears_only_mapping trueRO trueCO tssW bmW [] [["a"]] sysW
      c8R.2.1 c8R.2.2 h).1,
   (commit_clears_only_mapping trueRO trueCO tssW bmW [] [["a"]] sysW
      c8R.2.1 c8R.2.2 h).2.1⟩

/-- Claim C10: Begin discards the entire previously recorded mapping before
taking any backup — its result is independent of the prior mapping, the
resulting mapping records only paths passed to this call, and Rollback only
ever writes to currently recorded paths, so a Rollback issued after a second
Begin never restores files recorded under an earlier Begin. -/
theorem begin_resets_previous_mapping (ro : Path → Bool)
    (co : Path → Path → Bool) (tss : Nat → String) (bm : BackupManager)
    (ps : List Path) (sys : Sys) (m0 : List (Path × Path)) :
    (∀ m1 m2 : List (Path × Path),
      beginTM ro co tss ⟨bm, m1⟩ ps sys = beginTM ro co tss ⟨bm, m2⟩ ps sys) ∧
    (∀ pb ∈ (beginTM ro co tss ⟨bm, m0⟩ ps sys).2.1.backupPaths, pb.1 ∈ ps) ∧
    (∀ (tm : TransactionManager) (fs : FS) (q : Path),
      (∀ pb ∈ tm.backupPaths, q ≠ pb.1) →
      alookup (rollbackTM co tm fs).2 q = alookup fs q) := by
  refine ⟨fun m1 m2 => rfl, fun pb hpb => ?_, fun tm fs q hq => ?_⟩
  · rcases beginLoop_mem bm ro co tss ps [] sys pb hpb with h | h
    · simp at h
    · exact h
  · exact rollbackFold_frame co tm.backupPaths (none, fs) q hq

/-- Claim C10 witness: a rollback of a transaction recording only the path a
does not touch the unrelated path b. -/
theorem begin_resets_previous_mapping_witness :
    alookup (rollbackTM trueCO ⟨bmW, [(["a"], ["bk", "a-1.bak"])]⟩
      [(["b"], "y")]).2 ["b"] = alookup [(["b"], "y")] ["b"] :=
  (begin_resets_previous_mapping trueRO trueCO tssW bmW [] sysW []).2.2
    ⟨bmW, [(["a"], ["bk", "a-1.bak"])]⟩ [(["b"], "y")] ["b"] (by decide)

/-- Claim C7: terminal states are mutually exclusive and idempotent.  After
Commit the mapping is empty, so a subsequent Rollback restores no file and
returns no error; Commit is idempotent; and under the intended usage (the
recorded paths are distinct, no recorded path doubles as a backup path, and
the restore copies succeed) Rollback reports no error and running it a second
time changes neither the file system nor the transaction state (Rollback
never modifies the mapping). -/
theorem transaction_terminal_idempotent (co : Path → Path → Bool)
    (tm : TransactionManager) (fs : FS) :
    (rollbackTM co (commitTM tm) fs = (none, fs)) ∧
    (commitTM (commitTM tm) = commitTM tm) ∧
    ((tm.backupPaths.map Prod.fst).Nodup →
      (∀ a ∈ tm.backupPaths, ∀ b ∈ tm.backupPaths, a.1 ≠ b.2) →
      (∀ pb ∈ tm.backupPaths, co pb.2 pb.1 = true) →
      (rollbackTM co tm fs).1 = none ∧
      rollbackTM co tm ((rollbackTM co tm fs).2) = rollbackTM co tm fs) := by
  refine ⟨rfl, rfl, fun hnd hdisj hco => ⟨?_, ?_⟩⟩
  · exact rollbackFold_err co tm.backupPaths fs none hco
  · have hC : ∀ pb ∈ tm.backupPaths,
        alookup (rollbackTM co tm fs).2 pb.2 = none ∨
        ∃ c, alookup (rollbackTM co tm fs).2 pb.2 = some c ∧
          alookup (rollbackTM co tm fs).2 pb.1 = some c := by
      intro pb hpb
      obtain ⟨hA, _, hCspec, _⟩ :=
        rollbackFold_spec co tm.backupPaths fs none pb hnd hdisj hpb
      rcases hs : alookup fs pb.2 with _ | c
      · left; exact hA.trans hs
      · right
        exact ⟨c, hA.trans hs, hCspec c hs (hco pb hpb)⟩
    have h2 : rollbackTM co tm ((rollbackTM co tm fs).2)
        = (none, (rollbackTM co tm fs).2) :=
      rollbackFold_noop co tm.backupPaths _ none hC hco
    have h1 : rollbackTM co tm fs = (none, (rollbackTM co tm fs).2) :=
      Prod.ext (rollbackFold_err co tm.backupPaths fs none hco) rfl
    exact h2.trans h1.symm

/-- Claim C7 witness: the concrete one-entry transaction. -/
theorem transaction_terminal_idempotent_witness :
    (rollbackTM trueCO ⟨bmW, [(["a"], ["bk", "a-1.bak"])]⟩
      [(["a"], "x"), (["bk", "a-1.bak"], "old")]).1 = none ∧
    rollbackTM trueCO ⟨bmW, [(["a"], ["bk", "a-1.bak"])]⟩
      ((rollbackTM trueCO ⟨bmW, [(["a"], ["bk", "a-1.bak"])]⟩
        [(["a"], "x"), (["bk", "a-1.bak"], "old")]).2)
      = rollbackTM trueCO ⟨bmW, [(["a"], ["bk", "a-1.bak"])]⟩
        [(["a"], "x"), (["bk", "a-1.bak"], "old")] :=
  (transaction_terminal_idempotent trueCO ⟨bmW, [(["a"], ["bk", "a-1.bak"])]⟩
    [(["a"], "x"), (["bk", "a-1.bak"], "old")]).2.2
    (by decide) (by decide) (by decide)

/-- Claim C3: for a path with at least one backup for its base name,
RestoreFromBackup selects the most recent backup — the last of the sorted
listing, which is lexicographically greatest among the found backups — copies
its content over the path and returns the backup path; with no backup it
fails with a FileOperation error. -/
theorem restore_picks_most_recent (bm : BackupManager)
    (co : Path → Path → Bool) (fs : FS) (p : Path) :
    (findBackups bm fs (base p) = [] →
      restoreFromBackup bm co fs p =
        .error ⟨.fileOperation, "No backups found for file", none,
          [("file", base p)]⟩) ∧
    (findBackups bm fs (base p) ≠ [] →
      (findBackups bm fs (base p)).getLastD "" ∈ findBackups bm fs (base p) ∧
      (∀ x ∈ findBackups bm fs (base p),
        strLe x ((findBackups bm fs (base p)).getLastD "") = true) ∧
      (∃ c, alookup fs
          (bm.BackupDir ++ [(findBackups bm fs (base p)).getLastD ""]) = some c ∧
        (co (bm.BackupDir ++ [(findBackups bm fs (base p)).getLastD ""]) p = true →
          restoreFromBackup bm co fs p =
            .ok (awrite fs p c,
              bm.BackupDir ++ [(findBackups bm fs (base p)).getLastD ""])))) := by
  constructor
  · intro hempty
    unfold restoreFromBackup
    rw [if_pos (by rw [hempty]; rfl)]
  · intro hne
    have hmem : (findBackups bm fs (base p)).getLastD ""
        ∈ findBackups bm fs (base p) := mem_getLastD hne
    refine ⟨hmem,
      fun x hx => pairwise_getLastD_max (sorted_findBackups bm fs (base p)) hx,
      ?_⟩
    have hinB : (findBackups bm fs (base p)).getLastD ""
        ∈ bkNames bm fs (base p) :=
      (findBackups_perm bm fs (base p)).mem_iff.mp hmem
    have hinRaw : (findBackups bm fs (base p)).getLastD ""
        ∈ dirNamesRaw fs bm.BackupDir := (List.mem_filter.mp hinB).1
    obtain ⟨q, hqmem, hq⟩ := List.mem_filterMap.mp hinRaw
    have hqeq : q = bm.BackupDir
        ++ [(findBackups bm fs (base p)).getLastD ""] := entryName_eq_some hq
    have hsome : (alookup fs q).isSome := (alookup_isSome_iff fs q).mpr hqmem
    rcases hlook : alookup fs q with _ | c
    · rw [hlook] at hsome
      exact absurd hsome (by simp)
    · refine ⟨c, by rw [← hqeq]; exact hlook, fun hco => ?_⟩
      unfold restoreFromBackup
      rw [if_neg (by simp [List.isEmpty_iff, hne])]
      rw [copyFileM_ok_eq (show alookup fs (bm.BackupDir
        ++ [(findBackups bm fs (base p)).getLastD ""]) = some c from by
          rw [← hqeq]; exact hlook) hco]

def c3fsW : FS :=
  [(["f"], "v"), (["bk", "f-1.bak"], "a"), (["bk", "f-2.bak"], "b")]

/-- Claim C3 witness: the concrete two-backup store, where f-2.bak is the most
recent backup and restoration copies its content over the file. -/
theorem restore_picks_most_recent_witness :
    (∀ x ∈ findBackups bmW c3fsW "f", strLe x "f-2.bak" = true) ∧
    restoreFromBackup bmW trueCO c3fsW ["f"]
      = .ok (awrite c3fsW ["f"] "b", ["bk", "f-2.bak"]) := by
  obtain ⟨hm, hmax, c, hc, himp⟩ :=
    (restore_picks_most_recent bmW trueCO c3fsW ["f"]).2 (by decide)
  have h2 : alookup c3fsW (bmW.BackupDir
      ++ [(findBackups bmW c3fsW "f").getLastD ""]) = some "b" := by decide
  have hcv : c = "b" := by
    have h3 := h2.symm.trans hc
    injection h3 with h3
    exact h3.symm
  subst hcv
  exact ⟨hmax, himp (by decide)⟩

/-- Claim C1: Begin backs up every existing path (recording it in the mapping
with a backup inside the backup directory), skips non-existent paths without
error — in particular a call over only non-existent paths succeeds and
changes nothing — and on a backup failure returns the triggering
FileOperation error after rolling back: every path recorded so far either
carries the content of its recorded backup or is unchanged from its content
at the start of the call (the backup may have been evicted by retention, in
which case the rollback skips it and the file is untouched).  The hypothesis
keeps the backed-up paths outside the backup directory itself, as in every
use in the source. -/
theorem begin_backs_up_and_rolls_back (bm : BackupManager) (ro : Path → Bool)
    (co : Path → Path → Bool) (tss : Nat → String) (sys : Sys) (ps : List Path)
    (m0 : List (Path × Path))
    (hbd : ∀ p ∈ ps, p.dropLast ≠ bm.BackupDir) :
    ((∀ p ∈ ps, alookup sys.fs p = none) →
      beginTM ro co tss ⟨bm, m0⟩ ps sys = (none, ⟨bm, []⟩, sys)) ∧
    ((beginTM ro co tss ⟨bm, m0⟩ ps sys).1 = none →
      ∀ p ∈ ps, (alookup sys.fs p).isSome →
        ∃ b, (p, b) ∈ (beginTM ro co tss ⟨bm, m0⟩ ps sys).2.1.backupPaths ∧
          b.dropLast = bm.BackupDir) ∧
    (∀ e, (beginTM ro co tss ⟨bm, m0⟩ ps sys).1 = some e →
      e.type = .fileOperation ∧
      ∀ pb ∈ (beginTM ro co tss ⟨bm, m0⟩ ps sys).2.1.backupPaths,
        (∃ c, alookup (beginTM ro co tss ⟨bm, m0⟩ ps sys).2.2.fs pb.2 = some c ∧
          alookup (beginTM ro co tss ⟨bm, m0⟩ ps sys).2.2.fs pb.1 = some c) ∨
        alookup (beginTM ro co tss ⟨bm, m0⟩ ps sys).2.2.fs pb.1
          = alookup sys.fs pb.1) := by
  obtain ⟨c0, c1, c2, c3⟩ := beginLoop_spec bm ro co tss ps [] sys hbd
    (by simp [Wf]) (by simp)
  refine ⟨fun hall => ?_, fun hnone p hp hsome => ?_, fun e he => ?_⟩
  · have hr := c1 hall
    show ((beginLoop bm ro co tss ps [] sys).1,
      (⟨bm, (beginLoop bm ro co tss ps [] sys).2.1⟩ : TransactionManager),
      (beginLoop bm ro co tss ps [] sys).2.2) = (none, ⟨bm, []⟩, sys)
    rw [hr]
  · obtain ⟨f1, f2, f3⟩ := c2 hnone
    exact f3 p hp hsome
  · exact c3 e he

def c1co : Path → Path → Bool := fun src _ => decide (src = ["a"])

def c1sys : Sys := ⟨[(["a"], "x"), (["b"], "y")], 0⟩

/-- Claim C1 witness: a Begin over paths a and b where backing up b fails;
the theorem applies with the triggering error and the recorded path a is left
with its original content. -/
theorem begin_backs_up_and_rolls_back_witness :
    (⟨.fileOperation, "Failed to create backup", some "write error",
      [("source", "b"), ("destination", "bk/b-1.bak")]⟩ : AppErr).type
        = .fileOperation ∧
    ∀ pb ∈ (beginTM trueRO c1co tssW ⟨bmW, []⟩ [["a"], ["b"]] c1sys).2.1.backupPaths,
      (∃ c, alookup (beginTM trueRO c1co tssW ⟨bmW, []⟩
          [["a"], ["b"]] c1sys).2.2.fs pb.2 = some c ∧
        alookup (beginTM trueRO c1co tssW ⟨bmW, []⟩
          [["a"], ["b"]] c1sys).2.2.fs pb.1 = some c) ∨
      alookup (beginTM trueRO c1co tssW ⟨bmW, []⟩
        [["a"], ["b"]] c1sys).2.2.fs pb.1 = alookup c1sys.fs pb.1 :=
  (begin_backs_up_and_rolls_back bmW trueRO c1co tssW c1sys [["a"], ["b"]] []
    (by decide)).2.2
    ⟨.fileOperation, "Failed to create backup", some "write error",
      [("source", "b"), ("destination", "bk/b-1.bak")]⟩ (by decide)

/-- Claim C2: after every successful BackupFile call, the backup directory
retains at most MaxBackups (default 5, as set by NewBackupManager) backups
for the base name; whatever was removed by the retention cleanup is
lexicographically (hence chronologically, the names embedding a fixed-width
timestamp) no greater than everything retained — the oldest go first; and the
outcome of the call (its error, or its returned backup path) is independent
of the remove oracle: failures during cleanup never fail the BackupFile call
itself. -/
theorem backupFile_retention_bound (bm : BackupManager) (dir : Path)
    (co : Path → Path → Bool) (tss : Nat → String) (sys : Sys) (p : Path) :
    (newBackupManager dir).MaxBackups = 5 ∧
    (Wf sys.fs →
      (backupFileM bm (fun _ => true) co tss sys p).isOk = true →
      (findBackups bm
        (fsOfR (backupFileM bm (fun _ => true) co tss sys p)) (base p)).length
        ≤ bm.MaxBackups) ∧
    ((backupFileM bm (fun _ => true) co tss sys p).isOk = true →
      ∀ r ∈ findBackups bm sys.fs (base p),
        r ∉ findBackups bm
          (fsOfR (backupFileM bm (fun _ => true) co tss sys p)) (base p) →
        ∀ k ∈ findBackups bm
          (fsOfR (backupFileM bm (fun _ => true) co tss sys p)) (base p),
          strLe r k = true) ∧
    (∀ ro1 ro2 : Path → Bool,
      (backupFileM bm ro1 co tss sys p).map Prod.snd
        = (backupFileM bm ro2 co tss sys p).map Prod.snd) := by
  refine ⟨rfl, fun hwf hok => ?_, fun hok r hr hrout k hk => ?_,
    fun ro1 ro2 => backupFileM_ro_indep bm ro1 ro2 co tss sys p⟩
  · cases hb : backupFileM bm (fun _ => true) co tss sys p with
    | error e =>
      rw [hb] at hok
      have hfalse : (Except.error e : Except AppErr (Sys × Path)).isOk = false := rfl
      rw [hfalse] at hok
      exact absurd hok (by simp)
    | ok r0 =>
      obtain ⟨sys1, bp⟩ := r0
      obtain ⟨hbp, ⟨c, hcp, hfs1⟩, _, _⟩ := backupFileM_ok hb
      show (findBackups bm sys1.fs (base p)).length ≤ bm.MaxBackups
      rw [hfs1]
      exact cleanup_retention bm _ (base p) (Wf_awrite _ _ hwf)
  · cases hb : backupFileM bm (fun _ => true) co tss sys p with
    | error e =>
      rw [hb] at hok
      have hfalse : (Except.error e : Except AppErr (Sys × Path)).isOk = false := rfl
      rw [hfalse] at hok
      exact absurd hok (by simp)
    | ok r0 =>
      obtain ⟨sys1, bp⟩ := r0
      obtain ⟨hbp, ⟨c, hcp, hfs1⟩, _, _⟩ := backupFileM_ok hb
      rw [hb] at hrout hk
      have hrout2 : r ∉ findBackups bm sys1.fs (base p) := hrout
      have hk2 : k ∈ findBackups bm sys1.fs (base p) := hk
      rw [hfs1] at hrout2 hk2
      exact cleanup_oldest_first bm (awrite sys.fs bp c) (base p) r
        (mem_findBackups_awrite bp c hr) hrout2 k hk2

def c2tss : Nat → String := fun _ => "9"

def c2sys : Sys :=
  ⟨[(["f"], "v"), (["bk", "f-1.bak"], "a"), (["bk", "f-2.bak"], "b"),
    (["bk", "f-3.bak"], "c"), (["bk", "f-4.bak"], "d"),
    (["bk", "f-5.bak"], "e")], 8⟩

/-- Claim C2 witness: a sixth backup of f is taken into a directory already
holding five; the retention bound holds on the resulting directory. -/
theorem backupFile_retention_bound_witness :
    (findBackups bmW
      (fsOfR (backupFileM bmW (fun _ => true) trueCO c2tss c2sys ["f"]))
      "f").length ≤ bmW.MaxBackups :=
  (backupFile_retention_bound bmW ["bk"] trueCO c2tss c2sys ["f"]).2.1
    (by decide) (by decide)

end Supper
